import Mathlib

/-!
Verification development for the storage-engine foundations of the repository:
the LRU-K replacer (`src/buffer/lru_k_replacer.cpp`), the buffer pool manager
(`buffer_pool_manager.cpp`) and the copy-on-write trie (`trie.cpp`).

The C++ code is embedded shallowly:

* `std::map<frame_id_t, LRUKNode>` is embedded as a function
  `Nat → Option LRUKNode`; its keys are always `< replacer_size_` because
  every inserting operation rejects larger ids, so iterating the map in
  ascending key order is embedded as a fold over `List.range replacer_size_`.
* a thrown C++ exception is embedded as `Except.error`; the state at the
  moment of the throw is not observable by the caller.
* `size_t` arithmetic is embedded over `Nat`; the only places the width
  matters (`std::numeric_limits<size_t>::max/min`) appear explicitly as
  `sizeTMax` and `0`.
-/

namespace Bustub

/-- Exception kind thrown by the replacer (`std::out_of_range`). -/
inductive CxxError where
  | outOfRange
deriving DecidableEq

/-- Per-frame bookkeeping of `LRUKReplacer`: the access-timestamp history
(oldest at the front, newest at the back, as produced by `push_back` /
`pop_front`) and the evictable flag. -/
structure LRUKNode where
  history : List Nat
  is_evictable : Bool
deriving DecidableEq

/-- State of `LRUKReplacer`: `node_store_`, `current_timestamp_`,
`curr_size_`, `replacer_size_` and `k_`. -/
structure LRUKReplacer where
  node_store : Nat → Option LRUKNode
  current_timestamp : Nat
  curr_size : Nat
  replacer_size : Nat
  k : Nat

/-- Modelled from the spec: the constructor and the field initializers live in
`lru_k_replacer.h`, which is absent from `src/`. Per the spec, the replacer is
"Constructed with `num_frames` ... and `k`", the timestamp counter is
"monotonically increasing" logical time starting fresh, no frame is tracked
yet and `curr_size` counts the (initially zero) evictable frames. -/
def LRUKReplacer.init (num_frames k : Nat) : LRUKReplacer :=
  { node_store := fun _ => none
    current_timestamp := 0
    curr_size := 0
    replacer_size := num_frames
    k := k }

/-- The value `std::numeric_limits<size_t>::max()`. -/
def sizeTMax : Nat := 2 ^ 64 - 1

/-- The read `node_store_.at(v).history_.front()` for the current victim `v`; `Evict`
only reads it for frames that are in the store with nonempty history. -/
def LRUKReplacer.histFront (r : LRUKReplacer) (f : Nat) : Nat :=
  match r.node_store f with
  | some n => n.history.headD 0
  | none => 0

/-- One iteration of the loop in `LRUKReplacer::Evict`. The accumulator is
the pair of the current victim (`none` embeds `flag == false`) and
`max_k_dis`. -/
def evictStep (r : LRUKReplacer) (acc : Option Nat × Nat) (f : Nat) : Option Nat × Nat :=
  match r.node_store f with
  | none => acc
  | some node =>
    if node.is_evictable = false then acc
    else if node.history.length < r.k then
      match acc.1 with
      | none => (some f, sizeTMax)
      | some v =>
        if node.history.headD 0 < r.histFront v then (some f, sizeTMax) else acc
    else
      if r.current_timestamp - node.history.getLastD 0 > acc.2 then
        (some f, r.current_timestamp - node.history.getLastD 0)
      else acc

/-- Embeds `LRUKReplacer::Evict`: returns the victim frame id (`none` embeds a
`false` return) together with the updated replacer. -/
def LRUKReplacer.Evict (r : LRUKReplacer) : Option Nat × LRUKReplacer :=
  if r.curr_size = 0 then (none, r)
  else
    match ((List.range r.replacer_size).foldl (evictStep r) (none, 0)).1 with
    | some v =>
      (some v,
       { r with
         node_store := fun g => if g = v then none else r.node_store g
         curr_size := r.curr_size - 1 })
    | none => (none, r)

/-- The node written by `LRUKReplacer::RecordAccess`: the stored node (or a
fresh node with empty history and `is_evictable_ = false`; modelled from the
spec, as the `LRUKNode` defaults live in the absent header and the spec says
"initial `evictable` is `false`"), with the current timestamp pushed at the
back of the history and the front popped when the history then holds more
than `k_` entries. -/
def recordNode (k ts : Nat) (st : Option LRUKNode) : LRUKNode :=
  let node := st.getD { history := [], is_evictable := false }
  let hist := node.history ++ [ts]
  { history := if k < hist.length then hist.tail else hist
    is_evictable := node.is_evictable }

/-- Embeds `LRUKReplacer::RecordAccess`. -/
def LRUKReplacer.RecordAccess (r : LRUKReplacer) (f : Nat) : Except CxxError LRUKReplacer :=
  if r.replacer_size ≤ f then .error .outOfRange
  else
    .ok { r with
          node_store := fun g =>
            if g = f then some (recordNode r.k r.current_timestamp (r.node_store f))
            else r.node_store g
          current_timestamp := r.current_timestamp + 1 }

/-- Embeds `LRUKReplacer::SetEvictable`. -/
def LRUKReplacer.SetEvictable (r : LRUKReplacer) (f : Nat) (b : Bool) :
    Except CxxError LRUKReplacer :=
  if r.replacer_size ≤ f then .error .outOfRange
  else match r.node_store f with
  | none => .ok r
  | some node =>
    if node.is_evictable ≠ b then
      .ok { r with
            node_store := fun g =>
              if g = f then some { node with is_evictable := b } else r.node_store g
            curr_size := if b then r.curr_size + 1 else r.curr_size - 1 }
    else .ok r

/-- Embeds `LRUKReplacer::Remove`. -/
def LRUKReplacer.Remove (r : LRUKReplacer) (f : Nat) : Except CxxError LRUKReplacer :=
  if r.replacer_size ≤ f then .error .outOfRange
  else match r.node_store f with
  | none => .ok r
  | some node =>
    .ok { r with
          curr_size := if node.is_evictable then r.curr_size - 1 else r.curr_size
          node_store := fun g => if g = f then none else r.node_store g }

/-- Embeds `LRUKReplacer::Size`. -/
def LRUKReplacer.Size (r : LRUKReplacer) : Nat := r.curr_size

/-- The evictable flag of a store entry (`false` if untracked). -/
def flagOf : Option LRUKNode → Bool
  | some n => n.is_evictable
  | none => false

/-- The evictable flag stored for frame `f` (`false` if untracked). -/
def LRUKReplacer.evictableFlag (r : LRUKReplacer) (f : Nat) : Bool :=
  flagOf (r.node_store f)

/-- The number of currently tracked frames whose evictable flag is true. -/
def LRUKReplacer.evictCount (r : LRUKReplacer) : Nat :=
  Finset.sum (Finset.range r.replacer_size) (fun f => if r.evictableFlag f then 1 else 0)

/-- A public replacer operation. -/
inductive ReplOp where
  | record (f : Nat)
  | setEvictable (f : Nat) (b : Bool)
  | remove (f : Nat)
  | evict
deriving DecidableEq

/-- The operation uses a valid frame id (the contract of the replacer). -/
def ReplOp.frameOk (nf : Nat) : ReplOp → Bool
  | .record f => decide (f < nf)
  | .setEvictable f _ => decide (f < nf)
  | .remove f => decide (f < nf)
  | .evict => true

/-- Run one public operation. -/
def replStep (r : LRUKReplacer) : ReplOp → Except CxxError LRUKReplacer
  | .record f => r.RecordAccess f
  | .setEvictable f b => r.SetEvictable f b
  | .remove f => r.Remove f
  | .evict => .ok (r.Evict).2

/-- Run a sequence of public operations; a thrown exception aborts the run. -/
def applyOps : LRUKReplacer → List ReplOp → Except CxxError LRUKReplacer
  | r, [] => .ok r
  | r, op :: ops => (replStep r op).bind (fun r2 => applyOps r2 ops)

/-- C1: with `num_frames = 2`, `k = 2`, after accesses to frame 0 at
timestamps 0 and 1 and to frame 1 at timestamp 2, with both frames evictable,
`Evict` returns frame 0 even though frame 1 has only one recorded access
(fewer than k, hence infinite backward K-distance per the claim) while frame 0
has k accesses (finite distance). The claim requires frame 1 to be the
victim, so the code contradicts the claimed eviction policy: exhibited by
evaluating `Evict` on the state reached by the listed operations. -/
theorem lruk_evict_c1_failing_input :
    (applyOps (LRUKReplacer.init 2 2)
      [ReplOp.record 0, ReplOp.record 0, ReplOp.record 1,
       ReplOp.setEvictable 0 true, ReplOp.setEvictable 1 true]).map
      (fun r => ((r.Evict).1,
                 (r.node_store 0).map (fun n => n.history.length),
                 (r.node_store 1).map (fun n => n.history.length),
                 (r.evictableFlag 0, r.evictableFlag 1, r.k))) =
      Except.ok (some 0, some 2, some 1, (true, true, 2)) := rfl

/-- Two replacers with the same configuration whose stores agree (on flags)
everywhere except possibly at one valid frame id have evictable counts that
differ exactly by the difference of the flags at that id (stated additively,
with the two flags abstracted to avoid any shape assumption on the states). -/
theorem evictCount_update (r r2 : LRUKReplacer) (f : Nat) (hf : f < r.replacer_size)
    (hsz : r2.replacer_size = r.replacer_size)
    (hoff : ∀ g, g ≠ f → flagOf (r2.node_store g) = flagOf (r.node_store g))
    (b2 b1 : Bool) (hat2 : flagOf (r2.node_store f) = b2)
    (hat1 : flagOf (r.node_store f) = b1) :
    r2.evictCount + (if b1 then 1 else 0) = r.evictCount + (if b2 then 1 else 0) := by
  have hmem : f ∈ Finset.range r.replacer_size := Finset.mem_range.mpr hf
  have h2 : r2.evictCount = Finset.sum ((Finset.range r.replacer_size).erase f)
      (fun g => if flagOf (r.node_store g) then 1 else 0) + (if b2 then 1 else 0) := by
    unfold LRUKReplacer.evictCount LRUKReplacer.evictableFlag
    rw [hsz, ← Finset.sum_erase_add _ _ hmem]
    congr 1
    · refine Finset.sum_congr rfl (fun g hg => ?_)
      rw [hoff g (Finset.ne_of_mem_erase hg)]
    · rw [hat2]
  have h1 : r.evictCount = Finset.sum ((Finset.range r.replacer_size).erase f)
      (fun g => if flagOf (r.node_store g) then 1 else 0) + (if b1 then 1 else 0) := by
    unfold LRUKReplacer.evictCount LRUKReplacer.evictableFlag
    rw [← Finset.sum_erase_add _ _ hmem, hat1]
  omega

/-- The node `recordNode k ts st` keeps the evictable flag of the stored entry. -/
theorem flagOf_recordNode (k ts : Nat) (st : Option LRUKNode) :
    (recordNode k ts st).is_evictable = flagOf st := by
  cases st <;> rfl

/-- Two replacers with the same configuration and pointwise equal evictable
flags have the same evictable count. -/
theorem evictCount_congr (r r2 : LRUKReplacer) (hsz : r2.replacer_size = r.replacer_size)
    (hflag : ∀ g, flagOf (r2.node_store g) = flagOf (r.node_store g)) :
    r2.evictCount = r.evictCount := by
  unfold LRUKReplacer.evictCount LRUKReplacer.evictableFlag
  rw [hsz]
  exact Finset.sum_congr rfl (fun g _ => by rw [hflag g])

/-- Unfolding of `SetEvictable` on a valid tracked frame. -/
theorem setEvictable_eq_some (r : LRUKReplacer) (f : Nat) (b : Bool) (node : LRUKNode)
    (hlt : f < r.replacer_size) (h : r.node_store f = some node) :
    r.SetEvictable f b =
      if node.is_evictable ≠ b then
        .ok { r with
              node_store := fun g =>
                if g = f then some { node with is_evictable := b } else r.node_store g
              curr_size := if b then r.curr_size + 1 else r.curr_size - 1 }
      else .ok r := by
  rw [LRUKReplacer.SetEvictable, if_neg (by omega), h]

/-- Unfolding of `Remove` on a valid tracked frame. -/
theorem remove_eq_some (r : LRUKReplacer) (f : Nat) (node : LRUKNode)
    (hlt : f < r.replacer_size) (h : r.node_store f = some node) :
    r.Remove f =
      .ok { r with
            curr_size := if node.is_evictable then r.curr_size - 1 else r.curr_size
            node_store := fun g => if g = f then none else r.node_store g } := by
  rw [LRUKReplacer.Remove, if_neg (by omega), h]

/-- Running `RecordAccess` on a valid frame id succeeds and changes neither the size
counter, nor the evictable count, nor the configuration. -/
theorem recordAccess_ok (r : LRUKReplacer) (f : Nat) (hf : f < r.replacer_size) :
    ∃ r2, r.RecordAccess f = .ok r2 ∧ r2.curr_size = r.curr_size ∧
      r2.evictCount = r.evictCount ∧ r2.replacer_size = r.replacer_size := by
  rw [LRUKReplacer.RecordAccess, if_neg (by omega)]
  refine ⟨_, rfl, rfl, ?_, rfl⟩
  refine evictCount_congr r _ rfl (fun g => ?_)
  by_cases hg : g = f
  · subst hg
    simp [flagOf, flagOf_recordNode]
  · simp [hg]

/-- Running `SetEvictable` on a valid frame id succeeds, keeps the configuration, and
preserves the size invariant. -/
theorem setEvictable_ok (r : LRUKReplacer) (f : Nat) (b : Bool) (hf : f < r.replacer_size)
    (hinv : r.curr_size = r.evictCount) :
    ∃ r2, r.SetEvictable f b = .ok r2 ∧ r2.curr_size = r2.evictCount ∧
      r2.replacer_size = r.replacer_size := by
  cases h : r.node_store f with
  | none =>
    refine ⟨r, ?_, hinv, rfl⟩
    rw [LRUKReplacer.SetEvictable, if_neg (by omega), h]
  | some node =>
    rw [setEvictable_eq_some r f b node hf h]
    by_cases hb : node.is_evictable = b
    · rw [if_neg (fun hx => hx hb)]
      exact ⟨r, rfl, hinv, rfl⟩
    · rw [if_pos hb]
      refine ⟨_, rfl, ?_, rfl⟩
      show (if b then r.curr_size + 1 else r.curr_size - 1) =
        LRUKReplacer.evictCount
          { r with
            node_store := fun g =>
              if g = f then some { node with is_evictable := b } else r.node_store g
            curr_size := if b then r.curr_size + 1 else r.curr_size - 1 }
      have hupd := evictCount_update r
          { r with
            node_store := fun g =>
              if g = f then some { node with is_evictable := b } else r.node_store g
            curr_size := if b then r.curr_size + 1 else r.curr_size - 1 }
          f hf rfl (fun g hg => by simp [hg]) b node.is_evictable
          (by simp [flagOf]) (by simp [h, flagOf])
      by_cases hev : node.is_evictable = false
      · rw [hev] at hupd
        cases b with
        | false => exact absurd hev hb
        | true =>
          simp at hupd ⊢
          omega
      · have hev2 : node.is_evictable = true := by
          cases hx : node.is_evictable
          · exact absurd hx hev
          · rfl
        rw [hev2] at hupd
        cases b with
        | true => exact absurd hev2 hb
        | false =>
          simp at hupd ⊢
          omega

/-- Running `Remove` on a valid frame id succeeds (silently, even for a non-evictable
node), keeps the configuration, and preserves the size invariant. -/
theorem remove_ok (r : LRUKReplacer) (f : Nat) (hf : f < r.replacer_size)
    (hinv : r.curr_size = r.evictCount) :
    ∃ r2, r.Remove f = .ok r2 ∧ r2.curr_size = r2.evictCount ∧
      r2.replacer_size = r.replacer_size := by
  cases h : r.node_store f with
  | none =>
    refine ⟨r, ?_, hinv, rfl⟩
    rw [LRUKReplacer.Remove, if_neg (by omega), h]
  | some node =>
    rw [remove_eq_some r f node hf h]
    refine ⟨_, rfl, ?_, rfl⟩
    show (if node.is_evictable then r.curr_size - 1 else r.curr_size) =
      LRUKReplacer.evictCount
        { r with
          curr_size := if node.is_evictable then r.curr_size - 1 else r.curr_size
          node_store := fun g => if g = f then none else r.node_store g }
    have hupd := evictCount_update r
        { r with
          curr_size := if node.is_evictable then r.curr_size - 1 else r.curr_size
          node_store := fun g => if g = f then none else r.node_store g }
        f hf rfl (fun g hg => by simp [hg]) false node.is_evictable
        (by simp [flagOf]) (by simp [h, flagOf])
    by_cases hev : node.is_evictable = false
    · rw [hev] at hupd ⊢
      simp at hupd ⊢
      omega
    · have hev2 : node.is_evictable = true := by
        cases hx : node.is_evictable
        · exact absurd hx hev
        · rfl
      rw [hev2] at hupd ⊢
      simp at hupd ⊢
      omega

/-- One step of the `Evict` loop either keeps the victim of the accumulator
or switches to the scanned frame, which is then evictable. -/
theorem evictStep_fst (r : LRUKReplacer) (acc : Option Nat × Nat) (f : Nat) :
    (evictStep r acc f).1 = acc.1 ∨
      ((evictStep r acc f).1 = some f ∧ r.evictableFlag f = true) := by
  cases h : r.node_store f with
  | none => left; simp [evictStep, h]
  | some node =>
    by_cases he : node.is_evictable = false
    · left
      simp [evictStep, h, he]
    · have he2 : node.is_evictable = true := by
        cases hx : node.is_evictable
        · exact absurd hx he
        · rfl
      have hflag : r.evictableFlag f = true := by
        simp [LRUKReplacer.evictableFlag, h, flagOf, he2]
      simp only [evictStep, h]
      rw [if_neg he]
      split
      · split
        · right; exact ⟨rfl, hflag⟩
        · split
          · right; exact ⟨rfl, hflag⟩
          · left; rfl
      · split
        · right; exact ⟨rfl, hflag⟩
        · left; rfl

/-- If the `Evict` scan ends with a victim, the victim either was already in
the accumulator or is an evictable frame among the scanned ids. -/
theorem foldl_evictStep_victim (r : LRUKReplacer) :
    ∀ (l : List Nat) (acc : Option Nat × Nat) (v : Nat),
      (l.foldl (evictStep r) acc).1 = some v →
      acc.1 = some v ∨ (v ∈ l ∧ r.evictableFlag v = true) := by
  intro l
  induction l with
  | nil => intro acc v h; left; exact h
  | cons a t ih =>
    intro acc v h
    rcases ih (evictStep r acc a) v h with h1 | h2
    · rcases evictStep_fst r acc a with h3 | h3
      · left; rw [← h3]; exact h1
      · right
        have hva : v = a := by
          rw [h3.1] at h1
          exact (Option.some_inj.mp h1).symm
        subst hva
        exact ⟨List.mem_cons_self _ _, h3.2⟩
    · right; exact ⟨List.mem_cons_of_mem _ h2.1, h2.2⟩

/-- Running `Evict` preserves the size invariant and the configuration. -/
theorem evict_preserves (r : LRUKReplacer) (hinv : r.curr_size = r.evictCount) :
    (r.Evict).2.curr_size = (r.Evict).2.evictCount ∧
      (r.Evict).2.replacer_size = r.replacer_size := by
  rw [LRUKReplacer.Evict]
  by_cases h0 : r.curr_size = 0
  · simp only [if_pos h0]; exact ⟨hinv, trivial⟩
  · simp only [if_neg h0]
    cases hv : ((List.range r.replacer_size).foldl (evictStep r) (none, 0)).1 with
    | none => exact ⟨hinv, rfl⟩
    | some v =>
      rcases foldl_evictStep_victim r (List.range r.replacer_size) (none, 0) v hv with h1 | h2
      · exact absurd h1 (by simp)
      · have hvlt : v < r.replacer_size := List.mem_range.mp h2.1
        have hupd := evictCount_update r
          { r with node_store := fun g => if g = v then none else r.node_store g
                   curr_size := r.curr_size - 1 }
          v hvlt rfl (fun g hg => by simp [hg]) false true (by simp [flagOf])
          (by simpa [LRUKReplacer.evictableFlag] using h2.2)
        simp at hupd
        refine ⟨?_, rfl⟩
        show r.curr_size - 1 =
          LRUKReplacer.evictCount
            { r with
              node_store := fun g => if g = v then none else r.node_store g
              curr_size := r.curr_size - 1 }
        omega

/-- Running one contract-respecting operation succeeds and preserves the
size invariant and the configuration. -/
theorem replStep_ok (r : LRUKReplacer) (op : ReplOp) (hok : op.frameOk r.replacer_size = true)
    (hinv : r.curr_size = r.evictCount) :
    ∃ r2, replStep r op = .ok r2 ∧ r2.curr_size = r2.evictCount ∧
      r2.replacer_size = r.replacer_size := by
  cases op with
  | record f =>
    have hf : f < r.replacer_size := by simpa [ReplOp.frameOk] using hok
    rcases recordAccess_ok r f hf with ⟨r2, heq, hc, he, hs⟩
    exact ⟨r2, heq, by rw [hc, he]; exact hinv, hs⟩
  | setEvictable f b =>
    have hf : f < r.replacer_size := by simpa [ReplOp.frameOk] using hok
    rcases setEvictable_ok r f b hf hinv with ⟨r2, heq, hi, hs⟩
    exact ⟨r2, heq, hi, hs⟩
  | remove f =>
    have hf : f < r.replacer_size := by simpa [ReplOp.frameOk] using hok
    rcases remove_ok r f hf hinv with ⟨r2, heq, hi, hs⟩
    exact ⟨r2, heq, hi, hs⟩
  | evict =>
    rcases evict_preserves r hinv with ⟨hi, hs⟩
    exact ⟨(r.Evict).2, rfl, hi, hs⟩

/-- Auxiliary induction for C5 over a list of operations. -/
theorem applyOps_invariant (nf : Nat) :
    ∀ (ops : List ReplOp) (r : LRUKReplacer), r.replacer_size = nf →
      r.curr_size = r.evictCount → (∀ op ∈ ops, ReplOp.frameOk nf op = true) →
      ∃ r2, applyOps r ops = .ok r2 ∧ r2.curr_size = r2.evictCount := by
  intro ops
  induction ops with
  | nil => intro r _ hinv _; exact ⟨r, rfl, hinv⟩
  | cons op t ih =>
    intro r hsz hinv hops
    have hok : op.frameOk r.replacer_size = true := by
      rw [hsz]; exact hops op (List.mem_cons_self _ _)
    rcases replStep_ok r op hok hinv with ⟨r2, heq, hi2, hs2⟩
    rcases ih r2 (by rw [hs2, hsz]) hi2 (fun o ho => hops o (List.mem_cons_of_mem _ ho)) with
      ⟨r3, heq3, hi3⟩
    refine ⟨r3, ?_, hi3⟩
    show (replStep r op).bind (fun r4 => applyOps r4 t) = Except.ok r3
    rw [heq]
    exact heq3

/-- C5: after every sequence of replacer operations that respects the
contracts (every frame id below `num_frames`; the code is silently permissive
about removing non-evictable frames, so no separate contract is needed for
`remove`), the run completes without an exception and `Size()` equals the
number of currently tracked frames whose evictable flag is true. -/
theorem lruk_size_invariant (nf k : Nat) (ops : List ReplOp)
    (hops : ∀ op ∈ ops, ReplOp.frameOk nf op = true) :
    ∃ r, applyOps (LRUKReplacer.init nf k) ops = .ok r ∧ r.Size = r.evictCount :=
  applyOps_invariant nf ops (LRUKReplacer.init nf k) rfl
    (by simp [LRUKReplacer.evictCount, LRUKReplacer.evictableFlag, LRUKReplacer.init, flagOf])
    hops

/-- Witness for C5 at a concrete contract-respecting operation sequence. -/
theorem lruk_size_invariant_witness :
    ∃ r, applyOps (LRUKReplacer.init 3 2)
        [ReplOp.record 0, ReplOp.setEvictable 0 true, ReplOp.record 1,
         ReplOp.setEvictable 1 true, ReplOp.evict, ReplOp.remove 1] = .ok r ∧
      r.Size = r.evictCount :=
  lruk_size_invariant 3 2 _ (by decide)

/-- C6 counterexample: `RecordAccess(0)` tracks frame 0 with the evictable
flag still `false`; `Remove(0)` then returns normally (no `Abort`) and the
node is silently removed, contradicting the claim that removal of a
non-evictable frame fails fatally. -/
theorem lruk_remove_c6_counterexample :
    (((LRUKReplacer.init 2 2).RecordAccess 0).bind (fun r => r.Remove 0)).map
      (fun r => ((r.node_store 0).isNone, r.curr_size)) = Except.ok (true, 0) := rfl

/-- A replacer state tracking frame 0 as non-evictable. -/
def lrukNonEvictableState : LRUKReplacer :=
  { node_store := fun g => if g = 0 then some { history := [0], is_evictable := false } else none
    current_timestamp := 1
    curr_size := 0
    replacer_size := 2
    k := 2 }

/-- C6 (amended): `Remove(frame_id)` on a tracked frame whose evictable flag
is false succeeds silently, removing the node and leaving the size counter
unchanged; on an untracked frame it is a no-op; on `frame_id ≥ num_frames` it
throws `std::out_of_range`. -/
theorem lruk_remove_amended (r : LRUKReplacer) (f : Nat) :
    (r.replacer_size ≤ f → r.Remove f = .error .outOfRange) ∧
    (f < r.replacer_size → r.node_store f = none → r.Remove f = .ok r) ∧
    (∀ n, f < r.replacer_size → r.node_store f = some n → n.is_evictable = false →
      r.Remove f =
        .ok { r with node_store := fun g => if g = f then none else r.node_store g }) := by
  refine ⟨fun hle => ?_, fun hlt hnone => ?_, fun n hlt hsome hev => ?_⟩
  · rw [LRUKReplacer.Remove, if_pos hle]
  · rw [LRUKReplacer.Remove, if_neg (by omega), hnone]
  · rw [remove_eq_some r f n hlt hsome, hev]
    simp

/-- Witness for the amended C6 at concrete inputs: an out-of-range id throws,
and removing the tracked non-evictable frame 0 silently erases its node. -/
theorem lruk_remove_amended_witness :
    LRUKReplacer.Remove (LRUKReplacer.init 2 2) 5 = .error .outOfRange ∧
    lrukNonEvictableState.Remove 0 =
      .ok { lrukNonEvictableState with
            node_store := fun g => if g = 0 then none else lrukNonEvictableState.node_store g } :=
  ⟨(lruk_remove_amended (LRUKReplacer.init 2 2) 5).1 (by decide),
   (lruk_remove_amended lrukNonEvictableState 0).2.2
     { history := [0], is_evictable := false } (by decide) rfl rfl⟩

/-!
Copy-on-write trie (`trie.cpp`). The node type and the `Trie` handle are
modelled from the spec, since `trie.h` is absent from `src/`: per the spec a
node carries a `char → shared child` map (`std::map`, embedded as an
association list whose operations act on the first matching key — the only
one, as `std::map` keys are unique, which the `WF` predicate captures) and a
value node additionally carries a type-erased value (`is_value_node_` is
embedded as `value.isSome`). The supported value types are the five
explicitly instantiated in `trie.cpp`; `dynamic_cast<const
TrieNodeWithValue<T> *>` succeeds exactly when the node holds a value whose
static type is `T`, embedded as a type tag comparison. `Trie::Put` returns
`Option Trie`: `none` embeds the one undefined-behavior path of the source,
where `Put` with an empty key dereferences `root_->children_` although
`root_` may be null.
-/

/-- The value types explicitly instantiated in `trie.cpp`: `uint32_t`,
`uint64_t`, `std::string`, `std::unique_ptr<uint32_t>` and `MoveBlocked`. -/
inductive VTy where
  | u32
  | u64
  | str
  | ptrU32
  | moveBlocked
deriving DecidableEq

/-- A type-erased value: payload tagged with its static type. -/
inductive TrieVal where
  | u32 (v : Nat)
  | u64 (v : Nat)
  | str (s : List Char)
  | ptrU32 (v : Nat)
  | moveBlocked (v : Nat)
deriving DecidableEq

/-- The static type tag of an erased value. -/
def TrieVal.vty : TrieVal → VTy
  | .u32 _ => .u32
  | .u64 _ => .u64
  | .str _ => .str
  | .ptrU32 _ => .ptrU32
  | .moveBlocked _ => .moveBlocked

/-- A trie node: children map plus optional value (`TrieNode` has none,
`TrieNodeWithValue<T>` has one; `is_value_node_` is `value.isSome`). -/
inductive TrieNode : Type where
  | mk : List (Char × TrieNode) → Option TrieVal → TrieNode

/-- The children map of a node. -/
def TrieNode.children : TrieNode → List (Char × TrieNode)
  | .mk cs _ => cs

/-- The stored value of a node (`none` for a plain node). -/
def TrieNode.value : TrieNode → Option TrieVal
  | .mk _ v => v

/-- A `Trie` handle: a possibly null shared root. -/
structure Trie where
  root : Option TrieNode

/-- Embeds `map.find`: the entry of the first (in a `std::map`: the only) matching
key. -/
def assocLookup {κ α : Type} [DecidableEq κ] : List (κ × α) → κ → Option α
  | [], _ => none
  | (k2, a) :: t, k => if k = k2 then some a else assocLookup t k

/-- Overwriting the mapped value of the first matching key
(`pair.second = ...` on the matching iterator). -/
def assocReplace {κ α : Type} [DecidableEq κ] : List (κ × α) → κ → α → List (κ × α)
  | [], _, _ => []
  | (k2, b) :: t, k, a => if k = k2 then (k2, a) :: t else (k2, b) :: assocReplace t k a

/-- Embeds `map.erase(key)`: dropping the entry of the first matching key. -/
def assocErase {κ α : Type} [DecidableEq κ] : List (κ × α) → κ → List (κ × α)
  | [], _ => []
  | (k2, b) :: t, k => if k = k2 then t else (k2, b) :: assocErase t k

/-- The walk loop shared by `Trie::Get` (`for (auto ch : key)` with a null
check and a `children_.find(ch)` per step). -/
def trieWalk : Option TrieNode → List Char → Option TrieNode
  | none, _ => none
  | some n, [] => some n
  | some n, c :: rest => trieWalk (assocLookup n.children c) rest

/-- Embeds `Trie::Get<T>`: walk the key, then `dynamic_cast` to
`TrieNodeWithValue<T>`, which succeeds exactly when the terminal node holds a
value of static type `τ`. -/
def Trie.Get (t : Trie) (τ : VTy) (key : List Char) : Option TrieVal :=
  match trieWalk t.root key with
  | none => none
  | some n =>
    match n.value with
    | none => none
    | some v => if v.vty = τ then some v else none

/-- Embeds `PutCycle` (key nonempty, split as `c :: rest`): find the child edge for
`c`; if found, either overwrite it with a value node keeping its children
(`key.size() == 1`) or clone it, recurse and overwrite the link; if absent,
insert a fresh value node or a fresh plain node filled recursively. -/
def PutCycle (n : TrieNode) (c : Char) (rest : List Char) (v : TrieVal) : TrieNode :=
  match assocLookup n.children c with
  | some child =>
    match rest with
    | [] => TrieNode.mk (assocReplace n.children c (TrieNode.mk child.children (some v))) n.value
    | r :: rs => TrieNode.mk (assocReplace n.children c (PutCycle child r rs v)) n.value
  | none =>
    match rest with
    | [] => TrieNode.mk (n.children ++ [(c, TrieNode.mk [] (some v))]) n.value
    | r :: rs => TrieNode.mk (n.children ++ [(c, PutCycle (TrieNode.mk [] none) r rs v)]) n.value

/-- Embeds `Trie::Put`. With an empty key the source reads `root_->children_`
without a null check, so a null root is undefined behavior (a crash),
embedded as `none`; otherwise the new root is a value node keeping the old
children. With a nonempty key the root is cloned (or freshly created when
null) and `PutCycle` rewrites the path. -/
def Trie.Put (t : Trie) (key : List Char) (v : TrieVal) : Option Trie :=
  match key with
  | [] =>
    match t.root with
    | none => none
    | some r =>
      if r.children.isEmpty then some ⟨some (TrieNode.mk [] (some v))⟩
      else some ⟨some (TrieNode.mk r.children (some v))⟩
  | c :: rest =>
    match t.root with
    | none => some ⟨some (PutCycle (TrieNode.mk [] none) c rest v)⟩
    | some r => some ⟨some (PutCycle r c rest v)⟩

/-- Embeds `RemoveCycle` (key split as `c :: rest`): `none` embeds a `false` return
(key not present or terminal not a value node); `some n2` embeds `true` with
the mutated clone. At the terminal the value node is erased when childless,
else demoted to a plain node; on unwinding a childless plain clone is erased
from its parent. -/
def RemoveCycle (n : TrieNode) (c : Char) (rest : List Char) : Option TrieNode :=
  match assocLookup n.children c with
  | none => none
  | some child =>
    match rest with
    | [] =>
      if child.value.isSome then
        if child.children.isEmpty then
          some (TrieNode.mk (assocErase n.children c) n.value)
        else
          some (TrieNode.mk (assocReplace n.children c (TrieNode.mk child.children none)) n.value)
      else none
    | r :: rs =>
      match RemoveCycle child r rs with
      | none => none
      | some ptr =>
        if ptr.children.isEmpty && ptr.value.isNone then
          some (TrieNode.mk (assocErase n.children c) n.value)
        else
          some (TrieNode.mk (assocReplace n.children c ptr) n.value)

/-- Embeds `Trie::Remove`. -/
def Trie.Remove (t : Trie) (key : List Char) : Trie :=
  match t.root with
  | none => t
  | some r =>
    match key with
    | [] =>
      if r.value.isSome then
        if r.children.isEmpty then ⟨none⟩
        else ⟨some (TrieNode.mk r.children none)⟩
      else t
    | c :: rest =>
      match RemoveCycle r c rest with
      | none => t
      | some nr =>
        if nr.children.isEmpty && nr.value.isNone then ⟨none⟩
        else ⟨some nr⟩

/-- Well-formedness inherited from `std::map`: the children keys of every
node are distinct. -/
inductive TrieNode.WF : TrieNode → Prop where
  | mk (cs : List (Char × TrieNode)) (val : Option TrieVal)
      (hkeys : (cs.map Prod.fst).Nodup)
      (hsub : ∀ p ∈ cs, TrieNode.WF p.2) :
      TrieNode.WF (TrieNode.mk cs val)

/-- Well-formedness of a trie: its root, when present, is well formed. -/
def Trie.WF (t : Trie) : Prop := ∀ r, t.root = some r → r.WF

/-- The value stored at the end of the walk, if any. -/
def valueAt (m : Option TrieNode) (key : List Char) : Option TrieVal :=
  (trieWalk m key).bind TrieNode.value

/-- C4: on a trie whose root is absent, `Put` with the empty key dereferences
the null `root_` (`root_->children_`), a crash, embedded as `none`; the claim
instead requires a trie whose root is a value node with no children. -/
theorem trie_put_empty_key_null_root_crash :
    Trie.Put ⟨none⟩ [] (TrieVal.u32 0) = none := rfl

section AssocLemmas

variable {κ α : Type} [DecidableEq κ]

theorem assocLookup_append_self (l : List (κ × α)) (k : κ) (a : α)
    (h : assocLookup l k = none) : assocLookup (l ++ [(k, a)]) k = some a := by
  induction l with
  | nil => simp [assocLookup]
  | cons p t ih =>
    obtain ⟨k2, b⟩ := p
    simp only [List.cons_append, assocLookup] at h ⊢
    by_cases hk : k = k2
    · rw [if_pos hk] at h
      simp at h
    · rw [if_neg hk] at h ⊢
      exact ih h

theorem assocLookup_append_ne (l : List (κ × α)) (k k2 : κ) (a : α)
    (h : k2 ≠ k) : assocLookup (l ++ [(k, a)]) k2 = assocLookup l k2 := by
  induction l with
  | nil => simp [assocLookup, if_neg h]
  | cons p t ih =>
    obtain ⟨k3, b⟩ := p
    simp only [List.cons_append, assocLookup]
    by_cases hk : k2 = k3
    · rw [if_pos hk, if_pos hk]
    · rw [if_neg hk, if_neg hk]
      exact ih

theorem assocLookup_replace_self (l : List (κ × α)) (k : κ) (a b : α)
    (h : assocLookup l k = some b) : assocLookup (assocReplace l k a) k = some a := by
  induction l with
  | nil => simp [assocLookup] at h
  | cons p t ih =>
    obtain ⟨k2, c⟩ := p
    simp only [assocLookup, assocReplace] at h ⊢
    by_cases hk : k = k2
    · rw [if_pos hk]
      simp only [assocLookup, if_pos hk]
    · rw [if_neg hk] at h
      rw [if_neg hk]
      simp only [assocLookup, if_neg hk]
      exact ih h

theorem assocLookup_replace_ne (l : List (κ × α)) (k k2 : κ) (a : α)
    (h : k2 ≠ k) : assocLookup (assocReplace l k a) k2 = assocLookup l k2 := by
  induction l with
  | nil => simp [assocReplace]
  | cons p t ih =>
    obtain ⟨k3, b⟩ := p
    simp only [assocLookup, assocReplace]
    by_cases hk : k = k3
    · have hne : k2 ≠ k3 := by rw [← hk]; exact h
      rw [if_pos hk]
      simp only [assocLookup, if_neg hne]
    · rw [if_neg hk]
      simp only [assocLookup]
      by_cases hk2 : k2 = k3
      · rw [if_pos hk2, if_pos hk2]
      · rw [if_neg hk2, if_neg hk2]
        exact ih

theorem assocErase_append (l : List (κ × α)) (k : κ) (a : α)
    (h : assocLookup l k = none) : assocErase (l ++ [(k, a)]) k = l := by
  induction l with
  | nil => simp [assocErase]
  | cons p t ih =>
    obtain ⟨k2, b⟩ := p
    simp only [assocLookup] at h
    by_cases hk : k = k2
    · rw [if_pos hk] at h
      simp at h
    · rw [if_neg hk] at h
      simp only [List.cons_append, assocErase, if_neg hk]
      exact congrArg (fun x => (k2, b) :: x) (ih h)

theorem assocErase_replace (l : List (κ × α)) (k : κ) (a : α) :
    assocErase (assocReplace l k a) k = assocErase l k := by
  induction l with
  | nil => simp [assocReplace, assocErase]
  | cons p t ih =>
    obtain ⟨k2, b⟩ := p
    simp only [assocReplace, assocErase]
    by_cases hk : k = k2
    · rw [if_pos hk]
      simp only [assocErase, if_pos hk]
    · rw [if_neg hk]
      simp only [assocErase, if_neg hk]
      rw [ih]

theorem assocReplace_replace (l : List (κ × α)) (k : κ) (a b : α) :
    assocReplace (assocReplace l k a) k b = assocReplace l k b := by
  induction l with
  | nil => simp [assocReplace]
  | cons p t ih =>
    obtain ⟨k2, c⟩ := p
    simp only [assocReplace]
    by_cases hk : k = k2
    · rw [if_pos hk]
      simp only [assocReplace, if_pos hk]
    · rw [if_neg hk]
      simp only [assocReplace, if_neg hk]
      rw [ih]

theorem assocReplace_self_eq (l : List (κ × α)) (k : κ) (a : α)
    (h : assocLookup l k = some a) : assocReplace l k a = l := by
  induction l with
  | nil => simp [assocLookup] at h
  | cons p t ih =>
    obtain ⟨k2, b⟩ := p
    simp only [assocLookup] at h
    simp only [assocReplace]
    by_cases hk : k = k2
    · rw [if_pos hk] at h
      rw [if_pos hk]
      simp at h
      rw [h]
    · rw [if_neg hk] at h
      rw [if_neg hk, ih h]

theorem assocLookup_erase_ne (l : List (κ × α)) (k k2 : κ)
    (h : k2 ≠ k) : assocLookup (assocErase l k) k2 = assocLookup l k2 := by
  induction l with
  | nil => simp [assocErase]
  | cons p t ih =>
    obtain ⟨k3, b⟩ := p
    simp only [assocErase, assocLookup]
    by_cases hk : k = k3
    · rw [if_pos hk]
      rw [if_neg (by rw [← hk]; exact h)]
    · rw [if_neg hk]
      simp only [assocLookup]
      by_cases hk2 : k2 = k3
      · rw [if_pos hk2, if_pos hk2]
      · rw [if_neg hk2, if_neg hk2]
        exact ih

theorem assocLookup_eq_none_of_not_mem (l : List (κ × α)) (k : κ)
    (h : k ∉ l.map Prod.fst) : assocLookup l k = none := by
  induction l with
  | nil => rfl
  | cons p t ih =>
    obtain ⟨k2, b⟩ := p
    simp only [List.map_cons, List.mem_cons] at h
    push_neg at h
    simp only [assocLookup, if_neg h.1]
    exact ih h.2

theorem assocLookup_erase_self (l : List (κ × α)) (k : κ)
    (h : (l.map Prod.fst).Nodup) : assocLookup (assocErase l k) k = none := by
  induction l with
  | nil => rfl
  | cons p t ih =>
    obtain ⟨k2, b⟩ := p
    simp only [List.map_cons, List.nodup_cons] at h
    simp only [assocErase]
    by_cases hk : k = k2
    · rw [if_pos hk]
      refine assocLookup_eq_none_of_not_mem t k ?_
      rw [hk]
      exact h.1
    · rw [if_neg hk]
      simp only [assocLookup, if_neg hk]
      exact ih h.2

theorem assocLookup_mem (l : List (κ × α)) (k : κ) (a : α)
    (h : assocLookup l k = some a) : (k, a) ∈ l := by
  induction l with
  | nil => simp [assocLookup] at h
  | cons p t ih =>
    obtain ⟨k2, b⟩ := p
    simp only [assocLookup] at h
    by_cases hk : k = k2
    · rw [if_pos hk] at h
      simp only [Option.some_inj] at h
      rw [hk, h]
      exact List.mem_cons_self _ _
    · rw [if_neg hk] at h
      exact List.mem_cons_of_mem _ (ih h)

end AssocLemmas

/-- Eta for trie nodes. -/
theorem TrieNode.eta (n : TrieNode) : TrieNode.mk n.children n.value = n := by
  cases n
  rfl

/-- Children-keys distinctness from well-formedness. -/
theorem TrieNode.WF.nodup {cs : List (Char × TrieNode)} {val : Option TrieVal}
    (h : TrieNode.WF (TrieNode.mk cs val)) : (cs.map Prod.fst).Nodup := by
  cases h
  assumption

/-- Every looked-up child of a well-formed node is well formed. -/
theorem TrieNode.WF.child {cs : List (Char × TrieNode)} {val : Option TrieVal}
    (h : TrieNode.WF (TrieNode.mk cs val)) {c : Char} {m : TrieNode}
    (hl : assocLookup cs c = some m) : m.WF := by
  cases h with
  | mk _ _ hkeys hsub => exact hsub _ (assocLookup_mem _ _ _ hl)

/-- Walking from a null node yields nothing. -/
theorem trieWalk_none (key : List Char) : trieWalk none key = none := by
  cases key <;> rfl

theorem valueAt_empty_node (key : List Char) :
    valueAt (some (TrieNode.mk [] none)) key = none := by
  cases key with
  | nil => rfl
  | cons c rest =>
    show (trieWalk (assocLookup ([] : List (Char × TrieNode)) c) rest).bind TrieNode.value = none
    rw [show assocLookup ([] : List (Char × TrieNode)) c = none from rfl, trieWalk_none]
    rfl

/-- Walking a nonempty key steps into the matching child. -/
theorem valueAt_cons (n : TrieNode) (c : Char) (rest : List Char) :
    valueAt (some n) (c :: rest) = valueAt (assocLookup n.children c) rest := rfl

/-- The reader `Get` is the type-checked projection of `valueAt`. -/
theorem Get_eq_valueAt (t : Trie) (τ : VTy) (key : List Char) :
    t.Get τ key =
      (valueAt t.root key).bind (fun v => if v.vty = τ then some v else none) := by
  cases hw : trieWalk t.root key with
  | none => simp [Trie.Get, valueAt, hw]
  | some n =>
    cases hv : n.value with
    | none => simp [Trie.Get, valueAt, hw, hv]
    | some v => simp [Trie.Get, valueAt, hw, hv]

/-- After `PutCycle` the put key maps to the put value. -/
theorem valueAt_PutCycle (v : TrieVal) :
    ∀ (rest : List Char) (c : Char) (n : TrieNode),
      valueAt (some (PutCycle n c rest v)) (c :: rest) = some v := by
  intro rest
  induction rest with
  | nil =>
    intro c n
    obtain ⟨cs, val⟩ := n
    cases hl : assocLookup cs c with
    | some child =>
      have h1 : PutCycle (TrieNode.mk cs val) c [] v =
          TrieNode.mk (assocReplace cs c (TrieNode.mk child.children (some v))) val := by
        simp only [PutCycle, TrieNode.children, TrieNode.value, hl]
      rw [h1, valueAt_cons]
      simp only [TrieNode.children]
      rw [assocLookup_replace_self _ _ _ _ hl]
      rfl
    | none =>
      have h1 : PutCycle (TrieNode.mk cs val) c [] v =
          TrieNode.mk (cs ++ [(c, TrieNode.mk [] (some v))]) val := by
        simp only [PutCycle, TrieNode.children, TrieNode.value, hl]
      rw [h1, valueAt_cons]
      simp only [TrieNode.children]
      rw [assocLookup_append_self _ _ _ hl]
      rfl
  | cons r rs ih =>
    intro c n
    obtain ⟨cs, val⟩ := n
    cases hl : assocLookup cs c with
    | some child =>
      have h1 : PutCycle (TrieNode.mk cs val) c (r :: rs) v =
          TrieNode.mk (assocReplace cs c (PutCycle child r rs v)) val := by
        simp only [PutCycle, TrieNode.children, TrieNode.value, hl]
      rw [h1, valueAt_cons]
      simp only [TrieNode.children]
      rw [assocLookup_replace_self _ _ _ _ hl]
      exact ih r child
    | none =>
      have h1 : PutCycle (TrieNode.mk cs val) c (r :: rs) v =
          TrieNode.mk (cs ++ [(c, PutCycle (TrieNode.mk [] none) r rs v)]) val := by
        simp only [PutCycle, TrieNode.children, TrieNode.value, hl]
      rw [h1, valueAt_cons]
      simp only [TrieNode.children]
      rw [assocLookup_append_self _ _ _ hl]
      exact ih r (TrieNode.mk [] none)

/-- After a successful `Put` the put key maps to the put value. -/
theorem valueAt_Put (t : Trie) (key : List Char) (v : TrieVal) (t2 : Trie)
    (hput : t.Put key v = some t2) : valueAt t2.root key = some v := by
  cases key with
  | nil =>
    cases hr : t.root with
    | none =>
      simp only [Trie.Put, hr] at hput
      exact Option.noConfusion hput
    | some r =>
      simp only [Trie.Put, hr] at hput
      by_cases hemp : r.children.isEmpty
      · rw [if_pos hemp] at hput
        simp only [Option.some_inj] at hput
        rw [← hput]
        rfl
      · rw [if_neg hemp] at hput
        simp only [Option.some_inj] at hput
        rw [← hput]
        rfl
  | cons c rest =>
    cases hr : t.root with
    | none =>
      simp only [Trie.Put, hr] at hput
      simp only [Option.some_inj] at hput
      rw [← hput]
      exact valueAt_PutCycle v rest c (TrieNode.mk [] none)
    | some r =>
      simp only [Trie.Put, hr] at hput
      simp only [Option.some_inj] at hput
      rw [← hput]
      exact valueAt_PutCycle v rest c r

/-- C2 counterexample: on the trie with absent root and the empty key, `Put`
crashes (null dereference of `root_`), so `t.put(k, v).get(k)` does not
return `v` there. -/
theorem trie_put_get_c2_counterexample :
    (Trie.Put ⟨none⟩ [] (TrieVal.u32 1)).map (fun t2 => t2.Get VTy.u32 []) = none := rfl

/-- C2 (amended): for every trie `t`, key `k` and supported value `v`, if
the root of `t` is present or `k` is nonempty (so that `Put` does not hit
the null-root dereference), then `t.put(k, v)` returns a trie on which
`get<T>(k)` with the static type `T` of `v` returns `v`. -/
theorem trie_put_get (t : Trie) (key : List Char) (v : TrieVal)
    (h : t.root.isSome = true ∨ key ≠ []) :
    ∃ t2, t.Put key v = some t2 ∧ t2.Get v.vty key = some v := by
  have hsucc : ∃ t2, t.Put key v = some t2 := by
    cases key with
    | nil =>
      rcases h with h | h
      · obtain ⟨r, hr⟩ := Option.isSome_iff_exists.mp h
        simp only [Trie.Put, hr]
        by_cases hemp : r.children.isEmpty
        · rw [if_pos hemp]
          exact ⟨_, rfl⟩
        · rw [if_neg hemp]
          exact ⟨_, rfl⟩
      · exact absurd rfl h
    | cons c rest =>
      cases hr : t.root with
      | none =>
        exact ⟨⟨some (PutCycle (TrieNode.mk [] none) c rest v)⟩, by simp only [Trie.Put, hr]⟩
      | some r => exact ⟨⟨some (PutCycle r c rest v)⟩, by simp only [Trie.Put, hr]⟩
  obtain ⟨t2, ht2⟩ := hsucc
  refine ⟨t2, ht2, ?_⟩
  rw [Get_eq_valueAt, valueAt_Put t key v t2 ht2]
  simp

/-- Witness for the amended C2 at a concrete input: inserting `u32 7` under
key "a" into the empty trie and reading it back. -/
theorem trie_put_get_witness :
    ∃ t2, Trie.Put ⟨none⟩ ['a'] (TrieVal.u32 7) = some t2 ∧
      t2.Get (TrieVal.u32 7).vty ['a'] = some (TrieVal.u32 7) :=
  trie_put_get ⟨none⟩ ['a'] (TrieVal.u32 7) (Or.inr (by simp))

/-- C9: a value inserted with static type `U` is invisible to `get<T>` for
every `T ≠ U`: the `dynamic_cast` to `TrieNodeWithValue<T>` fails and `Get`
returns null. -/
theorem trie_get_type_mismatch (t : Trie) (key : List Char) (v : TrieVal) (τ : VTy)
    (t2 : Trie) (hput : t.Put key v = some t2) (hne : τ ≠ v.vty) :
    t2.Get τ key = none := by
  rw [Get_eq_valueAt, valueAt_Put t key v t2 hput]
  simp only [Option.some_bind]
  rw [if_neg (fun hx => hne hx.symm)]

/-- Witness for C9 at a concrete input: a `u32` stored under key "a" is not
returned by `get<uint64_t>`. -/
theorem trie_get_type_mismatch_witness :
    Trie.Get ⟨some (PutCycle (TrieNode.mk [] none) 'a' [] (TrieVal.u32 3))⟩ VTy.u64 ['a'] =
      none :=
  trie_get_type_mismatch ⟨none⟩ ['a'] (TrieVal.u32 3) VTy.u64
    ⟨some (PutCycle (TrieNode.mk [] none) 'a' [] (TrieVal.u32 3))⟩ rfl (by decide)

/-- The value walk from a null root yields nothing. -/
theorem valueAt_none (key : List Char) : valueAt none key = none := by
  show (trieWalk none key).bind TrieNode.value = none
  rw [trieWalk_none]
  rfl

/-- A node with no children and no value is the empty plain node. -/
theorem emptyPlain_of (m : TrieNode) (h : (m.children.isEmpty && m.value.isNone) = true) :
    m = TrieNode.mk [] none := by
  obtain ⟨cs, val⟩ := m
  simp only [TrieNode.children, TrieNode.value, Bool.and_eq_true, List.isEmpty_iff,
    Option.isNone_iff_eq_none] at h
  rw [h.1, h.2]

/-- Core of C3 for nonempty keys: on a node holding no value at the key,
`RemoveCycle` undoes `PutCycle`: it reports success, keeps the node value,
restores the stored value at every key, and is the literal identity when the
first key character had no edge (the freshly created chain is pruned in
full). -/
theorem RemoveCycle_PutCycle (v : TrieVal) :
    ∀ (rest : List Char) (c : Char) (n : TrieNode), n.WF →
      valueAt (some n) (c :: rest) = none →
      ∃ n2, RemoveCycle (PutCycle n c rest v) c rest = some n2 ∧
        n2.value = n.value ∧
        (∀ key, valueAt (some n2) key = valueAt (some n) key) ∧
        (assocLookup n.children c = none → n2 = n) := by
  intro rest
  induction rest with
  | nil =>
    intro c n hwf hnov
    obtain ⟨cs, val⟩ := n
    cases hl : assocLookup cs c with
    | none =>
      have h1 : PutCycle (TrieNode.mk cs val) c [] v =
          TrieNode.mk (cs ++ [(c, TrieNode.mk [] (some v))]) val := by
        simp only [PutCycle, TrieNode.children, TrieNode.value, hl]
      have h2 : RemoveCycle (TrieNode.mk (cs ++ [(c, TrieNode.mk [] (some v))]) val) c [] =
          some (TrieNode.mk cs val) := by
        simp [RemoveCycle, TrieNode.children, TrieNode.value,
          assocLookup_append_self cs c (TrieNode.mk [] (some v)) hl,
          assocErase_append cs c (TrieNode.mk [] (some v)) hl]
      exact ⟨TrieNode.mk cs val, by rw [h1, h2], rfl, fun key => rfl, fun _ => rfl⟩
    | some child =>
      have hcv : child.value = none := by
        have h0 : valueAt (some (TrieNode.mk cs val)) [c] = child.value := by
          rw [valueAt_cons]
          simp only [TrieNode.children]
          rw [hl]
          rfl
        exact h0.symm.trans hnov
      have h1 : PutCycle (TrieNode.mk cs val) c [] v =
          TrieNode.mk (assocReplace cs c (TrieNode.mk child.children (some v))) val := by
        simp only [PutCycle, TrieNode.children, TrieNode.value, hl]
      cases hcc : child.children with
      | nil =>
        rw [hcc] at h1
        have h2 : RemoveCycle
            (TrieNode.mk (assocReplace cs c (TrieNode.mk [] (some v))) val) c [] =
            some (TrieNode.mk (assocErase cs c) val) := by
          simp [RemoveCycle, TrieNode.children, TrieNode.value,
            assocLookup_replace_self cs c (TrieNode.mk [] (some v)) child hl,
            assocErase_replace]
        have hch : child = TrieNode.mk [] none := by
          rw [← TrieNode.eta child, hcc, hcv]
        refine ⟨TrieNode.mk (assocErase cs c) val, by rw [h1, h2], rfl, ?_, ?_⟩
        · intro key
          cases key with
          | nil => rfl
          | cons d κ =>
            rw [valueAt_cons, valueAt_cons]
            simp only [TrieNode.children]
            by_cases hd : d = c
            · subst hd
              rw [assocLookup_erase_self cs d hwf.nodup, hl, valueAt_none, hch,
                valueAt_empty_node]
            · rw [assocLookup_erase_ne cs c d hd]
        · intro hno
          simp only [TrieNode.children] at hno
          rw [hno] at hl
          exact Option.noConfusion hl
      | cons p ps =>
        rw [hcc] at h1
        have hch : TrieNode.mk (p :: ps) none = child := by
          rw [← hcc, ← hcv]
          exact TrieNode.eta child
        have h2 : RemoveCycle
            (TrieNode.mk (assocReplace cs c (TrieNode.mk (p :: ps) (some v))) val) c [] =
            some (TrieNode.mk (assocReplace cs c (TrieNode.mk (p :: ps) none)) val) := by
          simp [RemoveCycle, TrieNode.children, TrieNode.value,
            assocLookup_replace_self cs c (TrieNode.mk (p :: ps) (some v)) child hl,
            assocReplace_replace]
        have h3 : TrieNode.mk (assocReplace cs c (TrieNode.mk (p :: ps) none)) val =
            TrieNode.mk cs val := by
          rw [hch, assocReplace_self_eq cs c child hl]
        exact ⟨TrieNode.mk cs val, by rw [h1, h2, h3], rfl, fun key => rfl, fun _ => rfl⟩
  | cons r rs ih =>
    intro c n hwf hnov
    obtain ⟨cs, val⟩ := n
    cases hl : assocLookup cs c with
    | none =>
      have hwfe : TrieNode.WF (TrieNode.mk [] none) :=
        TrieNode.WF.mk [] none (by simp) (by simp)
      obtain ⟨m2, hm2, hmv, hmk, hmn⟩ := ih r (TrieNode.mk [] none) hwfe (valueAt_empty_node _)
      have hm2e : m2 = TrieNode.mk [] none := hmn rfl
      subst hm2e
      have h1 : PutCycle (TrieNode.mk cs val) c (r :: rs) v =
          TrieNode.mk (cs ++ [(c, PutCycle (TrieNode.mk [] none) r rs v)]) val := by
        simp only [PutCycle, TrieNode.children, TrieNode.value, hl]
      have h2 : RemoveCycle
          (TrieNode.mk (cs ++ [(c, PutCycle (TrieNode.mk [] none) r rs v)]) val) c (r :: rs) =
          some (TrieNode.mk cs val) := by
        simp [RemoveCycle, TrieNode.children, TrieNode.value,
          assocLookup_append_self cs c (PutCycle (TrieNode.mk [] none) r rs v) hl, hm2,
          assocErase_append cs c (PutCycle (TrieNode.mk [] none) r rs v) hl]
      exact ⟨TrieNode.mk cs val, by rw [h1, h2], rfl, fun key => rfl, fun _ => rfl⟩
    | some child =>
      have hwfc : child.WF := hwf.child hl
      have hnovc : valueAt (some child) (r :: rs) = none := by
        have h0 : valueAt (some (TrieNode.mk cs val)) (c :: r :: rs) =
            valueAt (some child) (r :: rs) := by
          rw [valueAt_cons]
          simp only [TrieNode.children]
          rw [hl]
        exact h0.symm.trans hnov
      obtain ⟨m2, hm2, hmv, hmk, hmn⟩ := ih r child hwfc hnovc
      have h1 : PutCycle (TrieNode.mk cs val) c (r :: rs) v =
          TrieNode.mk (assocReplace cs c (PutCycle child r rs v)) val := by
        simp only [PutCycle, TrieNode.children, TrieNode.value, hl]
      by_cases hfin : (m2.children.isEmpty && m2.value.isNone) = true
      · have hm2e : m2 = TrieNode.mk [] none := emptyPlain_of m2 hfin
        have h2 : RemoveCycle
            (TrieNode.mk (assocReplace cs c (PutCycle child r rs v)) val) c (r :: rs) =
            some (TrieNode.mk (assocErase cs c) val) := by
          simp [RemoveCycle, TrieNode.children, TrieNode.value,
            assocLookup_replace_self cs c (PutCycle child r rs v) child hl, hm2, hm2e,
            assocErase_replace]
        refine ⟨TrieNode.mk (assocErase cs c) val, by rw [h1, h2], rfl, ?_, ?_⟩
        · intro key
          cases key with
          | nil => rfl
          | cons d κ =>
            rw [valueAt_cons, valueAt_cons]
            simp only [TrieNode.children]
            by_cases hd : d = c
            · subst hd
              rw [assocLookup_erase_self cs d hwf.nodup, hl, valueAt_none, ← hmk κ, hm2e,
                valueAt_empty_node]
            · rw [assocLookup_erase_ne cs c d hd]
        · intro hno
          simp only [TrieNode.children] at hno
          rw [hno] at hl
          exact Option.noConfusion hl
      · have h2 : RemoveCycle
            (TrieNode.mk (assocReplace cs c (PutCycle child r rs v)) val) c (r :: rs) =
            some (TrieNode.mk (assocReplace cs c m2) val) := by
          simp [RemoveCycle, TrieNode.children, TrieNode.value,
            assocLookup_replace_self cs c (PutCycle child r rs v) child hl, hm2, hfin,
            assocReplace_replace]
          intro hx hy
          refine absurd ?_ hfin
          have hxc : m2.children = [] := hx
          have hyc : m2.value = none := hy
          rw [hxc, hyc]
          rfl
        refine ⟨TrieNode.mk (assocReplace cs c m2) val, by rw [h1, h2], rfl, ?_, ?_⟩
        · intro key
          cases key with
          | nil => rfl
          | cons d κ =>
            rw [valueAt_cons, valueAt_cons]
            simp only [TrieNode.children]
            by_cases hd : d = c
            · subst hd
              rw [assocLookup_replace_self cs d m2 child hl, hl]
              exact hmk κ
            · rw [assocLookup_replace_ne cs c d m2 hd]
        · intro hno
          simp only [TrieNode.children] at hno
          rw [hno] at hl
          exact Option.noConfusion hl

/-- C3 counterexample: with `t1` the trie holding `u32 1` at key "a",
`t1.put("a", u32 2).remove("a")` holds no value at "a" while `t1` holds
`u32 1` there, so the two key-value sets differ: `put` followed by `remove`
of a key the trie already contains does not restore the original value. -/
theorem trie_put_remove_c3_counterexample :
    (Trie.Put ⟨none⟩ ['a'] (TrieVal.u32 1)).map (fun t1 =>
      (t1.Put ['a'] (TrieVal.u32 2)).map (fun t2 =>
        ((t2.Remove ['a']).Get VTy.u32 ['a'], t1.Get VTy.u32 ['a']))) =
      some (some (none, some (TrieVal.u32 1))) := rfl

/-- C3 (amended): for every well-formed Trie `t` (distinct children keys, as
`std::map` guarantees), key `k` and value `v`, provided `t` holds no value at
`k` and the root of `t` is present or `k` is nonempty (so `put` does not hit
the null-root dereference), `t.put(k, v).remove(k)` has the same key-value
set as `t` (value-set equality over every key and type, not node identity),
including the pruning of the intermediate plain nodes created by the put. -/
theorem trie_put_remove_amended (t : Trie) (key : List Char) (v : TrieVal)
    (hwf : t.WF) (hnov : valueAt t.root key = none)
    (hc : t.root.isSome = true ∨ key ≠ []) :
    ∃ t2, t.Put key v = some t2 ∧
      ∀ (τ : VTy) (k2 : List Char), (t2.Remove key).Get τ k2 = t.Get τ k2 := by
  cases key with
  | nil =>
    rcases hc with h | h
    · obtain ⟨r, hr⟩ := Option.isSome_iff_exists.mp h
      obtain ⟨cs, val⟩ := r
      have hval : val = none := by
        have h0 : valueAt t.root [] = val := by
          rw [hr]
          rfl
        exact h0.symm.trans hnov
      subst hval
      cases hcs : cs with
      | nil =>
        subst hcs
        refine ⟨⟨some (TrieNode.mk [] (some v))⟩, ?_, ?_⟩
        · simp [Trie.Put, hr, TrieNode.children]
        · intro τ k2
          have hrem : Trie.Remove ⟨some (TrieNode.mk [] (some v))⟩ [] = ⟨none⟩ := by
            simp [Trie.Remove, TrieNode.children, TrieNode.value]
          rw [hrem, Get_eq_valueAt, Get_eq_valueAt]
          rw [show (⟨none⟩ : Trie).root = none from rfl, valueAt_none, hr, valueAt_empty_node]
      | cons p ps =>
        subst hcs
        refine ⟨⟨some (TrieNode.mk (p :: ps) (some v))⟩, ?_, ?_⟩
        · simp [Trie.Put, hr, TrieNode.children]
        · intro τ k2
          have hrem : Trie.Remove ⟨some (TrieNode.mk (p :: ps) (some v))⟩ [] =
              ⟨some (TrieNode.mk (p :: ps) none)⟩ := by
            simp [Trie.Remove, TrieNode.children, TrieNode.value]
          rw [hrem, Get_eq_valueAt, Get_eq_valueAt, hr]
    · exact absurd rfl h
  | cons c rest =>
    cases hr : t.root with
    | none =>
      have hwfe : TrieNode.WF (TrieNode.mk [] none) :=
        TrieNode.WF.mk [] none (by simp) (by simp)
      obtain ⟨m2, hm2, hmv, hmk, hmn⟩ :=
        RemoveCycle_PutCycle v rest c (TrieNode.mk [] none) hwfe (valueAt_empty_node _)
      have hm2e : m2 = TrieNode.mk [] none := hmn rfl
      subst hm2e
      refine ⟨⟨some (PutCycle (TrieNode.mk [] none) c rest v)⟩,
        by simp only [Trie.Put, hr], ?_⟩
      intro τ k2
      have hrem : Trie.Remove ⟨some (PutCycle (TrieNode.mk [] none) c rest v)⟩ (c :: rest) =
          ⟨none⟩ := by
        simp [Trie.Remove, TrieNode.children, TrieNode.value, hm2]
      rw [hrem, Get_eq_valueAt, Get_eq_valueAt, hr]
    | some r =>
      have hwfr : r.WF := hwf r hr
      have hnovr : valueAt (some r) (c :: rest) = none := by
        rw [← hr]
        exact hnov
      obtain ⟨m2, hm2, hmv, hmk, hmn⟩ := RemoveCycle_PutCycle v rest c r hwfr hnovr
      refine ⟨⟨some (PutCycle r c rest v)⟩, by simp only [Trie.Put, hr], ?_⟩
      intro τ k2
      by_cases hfin : (m2.children.isEmpty && m2.value.isNone) = true
      · have hm2e : m2 = TrieNode.mk [] none := emptyPlain_of m2 hfin
        have hrem : Trie.Remove ⟨some (PutCycle r c rest v)⟩ (c :: rest) = ⟨none⟩ := by
          simp [Trie.Remove, TrieNode.children, TrieNode.value, hm2, hm2e]
        rw [hrem, Get_eq_valueAt, Get_eq_valueAt, hr]
        rw [show (⟨none⟩ : Trie).root = none from rfl, valueAt_none, ← hmk k2, hm2e,
          valueAt_empty_node]
      · have hrem : Trie.Remove ⟨some (PutCycle r c rest v)⟩ (c :: rest) = ⟨some m2⟩ := by
          simp [Trie.Remove, TrieNode.children, TrieNode.value, hm2, hfin]
          intro hx hy
          refine absurd ?_ hfin
          have hxc : m2.children = [] := hx
          have hyc : m2.value = none := hy
          rw [hxc, hyc]
          rfl
        rw [hrem, Get_eq_valueAt, Get_eq_valueAt, hr]
        rw [show (⟨some m2⟩ : Trie).root = some m2 from rfl, hmk k2]

/-- Witness for the amended C3 at a concrete input: inserting and removing
key "ab" on the empty trie. -/
theorem trie_put_remove_amended_witness :
    ∃ t2, Trie.Put ⟨none⟩ ['a', 'b'] (TrieVal.u32 5) = some t2 ∧
      ∀ (τ : VTy) (k2 : List Char), (t2.Remove ['a', 'b']).Get τ k2 = Trie.Get ⟨none⟩ τ k2 :=
  trie_put_remove_amended ⟨none⟩ ['a', 'b'] (TrieVal.u32 5)
    (fun r h => Option.noConfusion h) rfl (Or.inr (by simp))

/-!
Buffer pool manager (`buffer_pool_manager.cpp`). The `Page` layout and the
member initializers are modelled from the spec (`page.h` and
`buffer_pool_manager.h` are absent from `src/`): a frame holds `PAGE_SIZE`
bytes (abstracted to one block value), the resident `page_id`, an unsigned
`pin_count` and a `dirty` flag. The disk manager is the opaque external
collaborator of spec section 6: it is embedded as the map `disk` from page
ids to block values together with the log `io` of issued `ReadPage` /
`WritePage` calls. `std::unordered_map` is embedded as an association list
(`emplace` after the guarding `find` appends). A thrown replacer exception
propagates out of the buffer pool (`Except`).
-/

/-- A call issued to the disk manager. -/
inductive IOEv where
  | read (pid : Int)
  | write (pid : Int) (data : Nat)
deriving DecidableEq

/-- The sentinel `INVALID_PAGE_ID`. -/
def INVALID_PAGE_ID : Int := -1

/-- A frame's `Page` object. -/
structure Page where
  data : Nat
  page_id : Int
  pin_count : Nat
  is_dirty : Bool
deriving DecidableEq

/-- State of `BufferPoolManager`. -/
structure BufferPoolManager where
  pool_size : Nat
  pages : Nat → Page
  page_table : List (Int × Nat)
  free_list : List Nat
  replacer : LRUKReplacer
  next_page_id : Int
  disk : Int → Nat
  io : List IOEv

/-- Embeds `BufferPoolManager::UnpinPage`. The C++ decrements `pin_count_`, marks
the frame evictable when the count reaches zero, then or-assigns the dirty
hint; the checks and the final frame state are reproduced verbatim. -/
def BufferPoolManager.UnpinPage (s : BufferPoolManager) (page_id : Int) (is_dirty : Bool) :
    Except CxxError (Bool × BufferPoolManager) :=
  if page_id = INVALID_PAGE_ID then .ok (false, s)
  else
    match assocLookup s.page_table page_id with
    | none => .ok (false, s)
    | some frame_id =>
      if (s.pages frame_id).pin_count ≤ 0 then .ok (false, s)
      else
        ((if (s.pages frame_id).pin_count - 1 = 0
          then s.replacer.SetEvictable frame_id true
          else .ok s.replacer).map
          (fun rep =>
            (true,
             { s with
               pages := fun g =>
                 if g = frame_id then
                   { s.pages frame_id with
                     pin_count := (s.pages frame_id).pin_count - 1
                     is_dirty := (s.pages frame_id).is_dirty || is_dirty }
                 else s.pages g
               replacer := rep })))

/-- Embeds `BufferPoolManager::FetchPage`. On a hit: record an access, mark the
frame non-evictable, bump the pin count. On a miss: take the back of the
free list, else evict; write back a dirty victim; move the page-table entry;
reset and reassign the frame (`pin_count = 1`, zeroed memory); record the
access; read the page from disk. -/
def BufferPoolManager.FetchPage (s : BufferPoolManager) (page_id : Int) :
    Except CxxError (Option Nat × BufferPoolManager) :=
  if page_id = INVALID_PAGE_ID then .ok (none, s)
  else
    match assocLookup s.page_table page_id with
    | some frame_id =>
      (s.replacer.RecordAccess frame_id).bind (fun r1 =>
        (r1.SetEvictable frame_id false).map (fun r2 =>
          (some frame_id,
           { s with
             pages := fun g =>
               if g = frame_id then
                 { s.pages frame_id with pin_count := (s.pages frame_id).pin_count + 1 }
               else s.pages g
             replacer := r2 })))
    | none =>
      if s.free_list.isEmpty && (s.replacer.Size == 0) then .ok (none, s)
      else
        match
          (if s.free_list.isEmpty = false then
            (s.free_list.getLast?).map (fun fid => (fid, s.free_list.dropLast, s.replacer))
          else
            match s.replacer.Evict with
            | (some fid, rep) => some (fid, s.free_list, rep)
            | (none, _) => none)
        with
        | none => .ok (none, s)
        | some (frame_id, fl, rep) =>
          let page := s.pages frame_id
          let dsk := if page.is_dirty then
              (fun q => if q = page.page_id then page.data else s.disk q)
            else s.disk
          let io1 := if page.is_dirty then s.io ++ [IOEv.write page.page_id page.data]
            else s.io
          let pt := assocErase s.page_table page.page_id ++ [(page_id, frame_id)]
          (rep.RecordAccess frame_id).bind (fun r1 =>
            (r1.SetEvictable frame_id false).map (fun r2 =>
              (some frame_id,
               { s with
                 page_table := pt
                 free_list := fl
                 replacer := r2
                 disk := dsk
                 io := io1 ++ [IOEv.read page_id]
                 pages := fun g =>
                   if g = frame_id then
                     { data := dsk page_id, page_id := page_id, pin_count := 1,
                       is_dirty := false }
                   else s.pages g })))

/-- The body of `BufferPoolManager::FlushPage`, guarded by the acquisition
of the buffer-pool `latch_`: `latchFree = false` embeds a call made while
the non-recursive `std::mutex` is already held by the same thread, which
never acquires the lock (undefined behavior, a deadlock in practice),
embedded as `none`. The flush writes the bytes back unconditionally (even
when clean) and clears the dirty flag. -/
def BufferPoolManager.FlushPageWhen (latchFree : Bool) (s : BufferPoolManager)
    (page_id : Int) : Option (Bool × BufferPoolManager) :=
  if latchFree = false then none
  else
    match assocLookup s.page_table page_id with
    | none => some (false, s)
    | some frame_id =>
      some (true,
        { s with
          disk := fun q => if q = page_id then (s.pages frame_id).data else s.disk q
          io := s.io ++ [IOEv.write page_id (s.pages frame_id).data]
          pages := fun g =>
            if g = frame_id then { s.pages frame_id with is_dirty := false }
            else s.pages g })

/-- Embeds `BufferPoolManager::FlushPage` called from outside, latch free. -/
def BufferPoolManager.FlushPage (s : BufferPoolManager) (page_id : Int) :
    Option (Bool × BufferPoolManager) :=
  BufferPoolManager.FlushPageWhen true s page_id

/-- Embeds `BufferPoolManager::FlushAllPages`: acquires `latch_`, then calls
`FlushPage` on every page-table entry; each nested call re-locks the
already-held mutex. -/
def BufferPoolManager.FlushAllPages (s : BufferPoolManager) : Option BufferPoolManager :=
  s.page_table.foldlM
    (fun st e => (BufferPoolManager.FlushPageWhen false st e.1).map Prod.snd) s

/-- A buffer pool state with one resident dirty page (page 0 in frame 0). -/
def bpmOnePage : BufferPoolManager :=
  { pool_size := 1
    pages := fun _ => { data := 7, page_id := 0, pin_count := 0, is_dirty := true }
    page_table := [(0, 0)]
    free_list := []
    replacer := LRUKReplacer.init 1 2
    next_page_id := 1
    disk := fun _ => 0
    io := [] }

/-- C8: evaluated on a state with one resident dirty page, `FlushAllPages`
deadlocks (the nested `FlushPage` re-locks the buffer-pool mutex the caller
already holds) instead of running to completion with the page flushed and
clean. It completes only on an empty page table, where the loop body never
runs. -/
theorem bpm_flush_all_deadlock :
    BufferPoolManager.FlushAllPages bpmOnePage = none ∧
      (bpmOnePage.pages 0).is_dirty = true := ⟨rfl, rfl⟩

/-- Running `SetEvictable(f, true)` on a valid tracked frame succeeds and leaves the
frame flagged evictable. -/
theorem setEvictable_true_flag (r : LRUKReplacer) (f : Nat) (hf : f < r.replacer_size)
    (ht : (r.node_store f).isSome = true) :
    ∃ r2, r.SetEvictable f true = .ok r2 ∧ r2.evictableFlag f = true := by
  obtain ⟨node, hn⟩ := Option.isSome_iff_exists.mp ht
  by_cases hev : node.is_evictable = true
  · refine ⟨r, ?_, ?_⟩
    · rw [setEvictable_eq_some r f true node hf hn, if_neg (fun hx => hx hev)]
    · simp [LRUKReplacer.evictableFlag, hn, flagOf, hev]
  · rw [setEvictable_eq_some r f true node hf hn, if_pos hev]
    refine ⟨_, rfl, ?_⟩
    simp [LRUKReplacer.evictableFlag, flagOf]

/-- Calling `SetEvictable` on a valid frame id always returns normally. -/
theorem setEvictable_isOk (r : LRUKReplacer) (f : Nat) (b : Bool)
    (hf : f < r.replacer_size) : ∃ r2, r.SetEvictable f b = .ok r2 := by
  cases h : r.node_store f with
  | none => exact ⟨r, by rw [LRUKReplacer.SetEvictable, if_neg (by omega), h]⟩
  | some node =>
    rw [setEvictable_eq_some r f b node hf h]
    by_cases hb : node.is_evictable = b
    · rw [if_neg (fun hx => hx hb)]
      exact ⟨r, rfl⟩
    · rw [if_pos hb]
      exact ⟨_, rfl⟩

/-- C7: `UnpinPage` returns false exactly when the page id is INVALID, the
page is not resident, or the pin count is already zero (leaving the state
unchanged); otherwise it returns true, decrements the pin count, or-assigns
the dirty hint into the dirty flag (never clearing an existing mark), marks
the frame evictable in the replacer exactly when the pin count reaches zero
(leaving the replacer untouched otherwise), and changes nothing else. The
hypothesis is the buffer-pool coherence invariant: a resident frame id is
within the replacer bound and tracked by it. -/
theorem bpm_unpin_spec (s : BufferPoolManager) (pid : Int) (hint : Bool)
    (hwf : ∀ fid, assocLookup s.page_table pid = some fid →
      fid < s.replacer.replacer_size ∧ (s.replacer.node_store fid).isSome = true) :
    (s.UnpinPage pid hint = .ok (false, s) ↔
      (pid = INVALID_PAGE_ID ∨ assocLookup s.page_table pid = none ∨
        ∃ fid, assocLookup s.page_table pid = some fid ∧ (s.pages fid).pin_count = 0)) ∧
    (∀ fid, pid ≠ INVALID_PAGE_ID → assocLookup s.page_table pid = some fid →
      0 < (s.pages fid).pin_count →
      ∃ s2, s.UnpinPage pid hint = .ok (true, s2) ∧
        (s2.pages fid).pin_count = (s.pages fid).pin_count - 1 ∧
        (s2.pages fid).is_dirty = ((s.pages fid).is_dirty || hint) ∧
        ((s.pages fid).pin_count - 1 = 0 → s2.replacer.evictableFlag fid = true) ∧
        ((s.pages fid).pin_count - 1 ≠ 0 → s2.replacer = s.replacer) ∧
        s2.page_table = s.page_table ∧ s2.free_list = s.free_list ∧
        s2.io = s.io ∧ s2.disk = s.disk ∧
        (∀ g, g ≠ fid → s2.pages g = s.pages g) ∧
        (s2.pages fid).page_id = (s.pages fid).page_id ∧
        (s2.pages fid).data = (s.pages fid).data) := by
  by_cases hpid : pid = INVALID_PAGE_ID
  · refine ⟨⟨fun _ => Or.inl hpid, fun _ => ?_⟩, fun fid hne _ _ => absurd hpid hne⟩
    rw [BufferPoolManager.UnpinPage, if_pos hpid]
  · cases hl : assocLookup s.page_table pid with
    | none =>
      refine ⟨⟨fun _ => Or.inr (Or.inl rfl), fun _ => ?_⟩,
        fun fid _ hsome _ => Option.noConfusion hsome⟩
      rw [BufferPoolManager.UnpinPage, if_neg hpid, hl]
    | some fid0 =>
      by_cases hpin : (s.pages fid0).pin_count = 0
      · have hval : s.UnpinPage pid hint = .ok (false, s) := by
          simp only [BufferPoolManager.UnpinPage, if_neg hpid, hl]
          rw [if_pos (by omega)]
        refine ⟨⟨fun _ => Or.inr (Or.inr ⟨fid0, rfl, hpin⟩), fun _ => hval⟩,
          fun fid _ hsome hgt => ?_⟩
        have hf : fid0 = fid := Option.some_inj.mp hsome
        rw [← hf] at hgt
        omega
      · obtain ⟨hflt, htrk⟩ := hwf fid0 hl
        by_cases hzero : (s.pages fid0).pin_count - 1 = 0
        · obtain ⟨rep, hrep, hflag⟩ := setEvictable_true_flag s.replacer fid0 hflt htrk
          have hcomp : s.UnpinPage pid hint = .ok (true,
              { s with
                pages := fun g =>
                  if g = fid0 then
                    { s.pages fid0 with
                      pin_count := (s.pages fid0).pin_count - 1
                      is_dirty := (s.pages fid0).is_dirty || hint }
                  else s.pages g
                replacer := rep }) := by
            simp only [BufferPoolManager.UnpinPage, if_neg hpid, hl,
              if_neg (show ¬(s.pages fid0).pin_count ≤ 0 by omega), if_pos hzero, hrep,
              Except.map]
          refine ⟨⟨fun heq => ?_, fun hcond => ?_⟩, fun fid _ hsome _ => ?_⟩
          · rw [hcomp] at heq
            simp at heq
          · rcases hcond with h | h | ⟨fid, hsome, hz⟩
            · exact absurd h hpid
            · exact Option.noConfusion h
            · have hf : fid0 = fid := Option.some_inj.mp hsome
              rw [← hf] at hz
              exact absurd hz hpin
          · have hf : fid0 = fid := Option.some_inj.mp hsome
            subst hf
            refine ⟨_, hcomp, by simp, by simp, fun _ => hflag,
              fun hz => absurd hzero hz, rfl, rfl, rfl, rfl,
              fun g hg => by simp [hg], by simp, by simp⟩
        · have hcomp : s.UnpinPage pid hint = .ok (true,
              { s with
                pages := fun g =>
                  if g = fid0 then
                    { s.pages fid0 with
                      pin_count := (s.pages fid0).pin_count - 1
                      is_dirty := (s.pages fid0).is_dirty || hint }
                  else s.pages g
                replacer := s.replacer }) := by
            simp only [BufferPoolManager.UnpinPage, if_neg hpid, hl,
              if_neg (show ¬(s.pages fid0).pin_count ≤ 0 by omega), if_neg hzero,
              Except.map]
          refine ⟨⟨fun heq => ?_, fun hcond => ?_⟩, fun fid _ hsome _ => ?_⟩
          · rw [hcomp] at heq
            simp at heq
          · rcases hcond with h | h | ⟨fid, hsome, hz⟩
            · exact absurd h hpid
            · exact Option.noConfusion h
            · have hf : fid0 = fid := Option.some_inj.mp hsome
              rw [← hf] at hz
              exact absurd hz hpin
          · have hf : fid0 = fid := Option.some_inj.mp hsome
            subst hf
            refine ⟨_, hcomp, by simp, by simp, fun hz => absurd hz hzero,
              fun _ => rfl, rfl, rfl, rfl, rfl,
              fun g hg => by simp [hg], by simp, by simp⟩

/-- C10: `FetchPage` on a resident page performs no disk read or write (the
I/O log and the disk are untouched) and leaves the page table, the free
list, the frame bytes, the frame page id and the dirty flag unchanged; the
only frame-metadata change is bumping that frame pin count by one, plus the
replacer receiving `RecordAccess` followed by `SetEvictable(false)` for the
frame, and every other frame is untouched. -/
theorem bpm_fetch_hit_spec (s : BufferPoolManager) (pid : Int) (fid : Nat)
    (hpid : pid ≠ INVALID_PAGE_ID)
    (hres : assocLookup s.page_table pid = some fid)
    (hflt : fid < s.replacer.replacer_size) :
    ∃ s2, s.FetchPage pid = .ok (some fid, s2) ∧
      s2.io = s.io ∧ s2.disk = s.disk ∧ s2.page_table = s.page_table ∧
      s2.free_list = s.free_list ∧
      (∀ g, g ≠ fid → s2.pages g = s.pages g) ∧
      (s2.pages fid).data = (s.pages fid).data ∧
      (s2.pages fid).page_id = (s.pages fid).page_id ∧
      (s2.pages fid).is_dirty = (s.pages fid).is_dirty ∧
      (s2.pages fid).pin_count = (s.pages fid).pin_count + 1 ∧
      (s.replacer.RecordAccess fid).bind (fun r1 => r1.SetEvictable fid false) =
        .ok s2.replacer := by
  rcases recordAccess_ok s.replacer fid hflt with ⟨r1, hr1, hcs1, hev1, hsz1⟩
  rcases setEvictable_isOk r1 fid false (by rw [hsz1]; exact hflt) with ⟨r2, hr2⟩
  refine ⟨{ s with
            pages := fun g =>
              if g = fid then
                { s.pages fid with pin_count := (s.pages fid).pin_count + 1 }
              else s.pages g
            replacer := r2 }, ?_, rfl, rfl, rfl, rfl,
    fun g hg => by simp [hg], by simp, by simp, by simp, by simp, ?_⟩
  · simp only [BufferPoolManager.FetchPage, if_neg hpid, hres, hr1, hr2, Except.bind,
      Except.map]
  · rw [hr1]
    exact hr2

/-- A buffer pool state with page 0 resident pinned in frame 0, tracked
non-evictable by the replacer. -/
def bpmPinned : BufferPoolManager :=
  { pool_size := 1
    pages := fun _ => { data := 5, page_id := 0, pin_count := 1, is_dirty := false }
    page_table := [(0, 0)]
    free_list := []
    replacer :=
      { node_store := fun g =>
          if g = 0 then some { history := [0], is_evictable := false } else none
        current_timestamp := 1
        curr_size := 0
        replacer_size := 1
        k := 2 }
    next_page_id := 1
    disk := fun _ => 0
    io := [] }

/-- Witness for C7 at a concrete input: unpinning the pinned resident page 0
with a dirty hint. -/
theorem bpm_unpin_spec_witness :
    ∃ s2, bpmPinned.UnpinPage 0 true = .ok (true, s2) ∧
      (s2.pages 0).pin_count = (bpmPinned.pages 0).pin_count - 1 ∧
      (s2.pages 0).is_dirty = ((bpmPinned.pages 0).is_dirty || true) ∧
      ((bpmPinned.pages 0).pin_count - 1 = 0 → s2.replacer.evictableFlag 0 = true) ∧
      ((bpmPinned.pages 0).pin_count - 1 ≠ 0 → s2.replacer = bpmPinned.replacer) ∧
      s2.page_table = bpmPinned.page_table ∧ s2.free_list = bpmPinned.free_list ∧
      s2.io = bpmPinned.io ∧ s2.disk = bpmPinned.disk ∧
      (∀ g, g ≠ 0 → s2.pages g = bpmPinned.pages g) ∧
      (s2.pages 0).page_id = (bpmPinned.pages 0).page_id ∧
      (s2.pages 0).data = (bpmPinned.pages 0).data :=
  (bpm_unpin_spec bpmPinned 0 true
    (fun fid h => by
      have hf : fid = 0 := by
        rw [show assocLookup bpmPinned.page_table 0 = some 0 from rfl] at h
        exact (Option.some_inj.mp h).symm
      subst hf
      exact ⟨by decide, rfl⟩)).2 0 (by decide) rfl (by decide)

/-- Witness for C10 at a concrete input: fetching the resident page 0. -/
theorem bpm_fetch_hit_spec_witness :
    ∃ s2, bpmPinned.FetchPage 0 = .ok (some 0, s2) ∧
      s2.io = bpmPinned.io ∧ s2.disk = bpmPinned.disk ∧
      s2.page_table = bpmPinned.page_table ∧ s2.free_list = bpmPinned.free_list ∧
      (∀ g, g ≠ 0 → s2.pages g = bpmPinned.pages g) ∧
      (s2.pages 0).data = (bpmPinned.pages 0).data ∧
      (s2.pages 0).page_id = (bpmPinned.pages 0).page_id ∧
      (s2.pages 0).is_dirty = (bpmPinned.pages 0).is_dirty ∧
      (s2.pages 0).pin_count = (bpmPinned.pages 0).pin_count + 1 ∧
      (bpmPinned.replacer.RecordAccess 0).bind (fun r1 => r1.SetEvictable 0 false) =
        .ok s2.replacer :=
  bpm_fetch_hit_spec bpmPinned 0 0 (by decide) rfl (by decide)

end Bustub
